import Mathlib

/-!
Shallow embedding of `src/SandSim2000/TheGreatWar.cpp` (repository
123samueld/quadTreeTest): a quadtree visualization with a camera and a
single selectable unit.  Float arithmetic of the source is embedded as
exact rational arithmetic (`ℚ`); the C++ `int` is embedded as `ℤ`.
All definitions are translated directly from the source file.
-/

namespace TheGreatWar

/-- Embedding of `sf::Vector2f`: a 2-D vector with rational components. -/
structure Vector2f where
  x : ℚ
  y : ℚ
deriving DecidableEq, Repr

instance : Add Vector2f := ⟨fun a b => ⟨a.x + b.x, a.y + b.y⟩⟩

instance : Sub Vector2f := ⟨fun a b => ⟨a.x - b.x, a.y - b.y⟩⟩

instance : HMul Vector2f ℚ Vector2f := ⟨fun a s => ⟨a.x * s, a.y * s⟩⟩

instance : HDiv Vector2f ℚ Vector2f := ⟨fun a s => ⟨a.x / s, a.y / s⟩⟩

/-- Embedding of `sf::FloatRect`: left, top, width, height. -/
structure FloatRect where
  left : ℚ
  top : ℚ
  width : ℚ
  height : ℚ
deriving DecidableEq, Repr

/-- Membership of a point in a rectangle, half-open on the far edges:
used to state the tiling property of the four child quadrants. -/
def memRect (r : FloatRect) (p : Vector2f) : Prop :=
  r.left ≤ p.x ∧ p.x < r.left + r.width ∧ r.top ≤ p.y ∧ p.y < r.top + r.height

instance (r : FloatRect) (p : Vector2f) : Decidable (memRect r p) := by
  unfold memRect; infer_instance

/-- Embedding of class `Quadtree`: a bounds rectangle, an `int` depth and a
list of children (the C++ `std::vector<std::shared_ptr<Quadtree>>`). -/
inductive Quadtree where
  | mk (bounds : FloatRect) (depth : ℤ) (children : List Quadtree)

def Quadtree.bounds : Quadtree → FloatRect
  | .mk b _ _ => b

def Quadtree.depth : Quadtree → ℤ
  | .mk _ d _ => d

def Quadtree.children : Quadtree → List Quadtree
  | .mk _ _ c => c

/-- Embedding of `Quadtree::calculateChildRect`.  The C++ function throws
`std::invalid_argument` on an index outside 0..3; the embedding returns
`none` there. -/
def calculateChildRect (bounds : FloatRect) (childIndex : ℤ) : Option FloatRect :=
  let halfWidth := bounds.width / 2
  let halfHeight := bounds.height / 2
  if childIndex = 0 then -- Top Left
    some ⟨bounds.left, bounds.top, halfWidth, halfHeight⟩
  else if childIndex = 1 then -- Top Right
    some ⟨bounds.left + halfWidth, bounds.top, halfWidth, halfHeight⟩
  else if childIndex = 2 then -- Bottom Left
    some ⟨bounds.left, bounds.top + halfHeight, halfWidth, halfHeight⟩
  else if childIndex = 3 then -- Bottom Right
    some ⟨bounds.left + halfWidth, bounds.top + halfHeight, halfWidth, halfHeight⟩
  else
    none

/-- The child indices supplied by the loop `for (int i = 0; i < 4; ++i)`
in `Quadtree::subdivide`. -/
def subdivideIndices : List ℤ := [0, 1, 2, 3]

/-- Embedding of `Quadtree::subdivide`.  In the C++ the loop body never
reaches the throwing branch of `calculateChildRect` (indices are 0..3),
so the `Option` is discharged with `getD`; `calculateChildRect_isSome_of_mem`
below proves the default is never used. -/
def Quadtree.subdivide (q : Quadtree) : Quadtree :=
  if h : q.children.isEmpty = false ∨ q.depth ≤ 0 then q
  else
    Quadtree.mk q.bounds q.depth
      (subdivideIndices.map fun i =>
        Quadtree.subdivide
          (Quadtree.mk ((calculateChildRect q.bounds i).getD q.bounds) (q.depth - 1) []))
termination_by q.depth.toNat
decreasing_by
  cases q with
  | mk b d c =>
    obtain ⟨-, h2⟩ := not_or.mp h
    simp only [Quadtree.depth] at h2 ⊢
    omega

mutual

/-- Total node count of a quadtree, the node itself included (used to state
the `(4^(d+1) - 1)/3` size property). -/
def Quadtree.countNodes : Quadtree → Nat
  | .mk _ _ cs => 1 + countNodesList cs

/-- Node count of a list of quadtrees. -/
def countNodesList : List Quadtree → Nat
  | [] => 0
  | q :: qs => q.countNodes + countNodesList qs

end

mutual

/-- `true` when every childless node of the tree has depth 0. -/
def Quadtree.leavesAtDepthZero : Quadtree → Bool
  | .mk _ d [] => decide (d = 0)
  | .mk _ _ (q :: qs) => leavesListAtDepthZero (q :: qs)

/-- `leavesAtDepthZero` over a list of quadtrees. -/
def leavesListAtDepthZero : List Quadtree → Bool
  | [] => true
  | q :: qs => q.leavesAtDepthZero && leavesListAtDepthZero qs

end

/-- Embedding of class `Camera`. -/
structure Camera where
  position : Vector2f
  zoomFactor : ℚ
  scrollSpeed : ℚ
deriving DecidableEq, Repr

/-- Embedding of `Camera::updateZoom`:
`zoomFactor = std::max(0.1f, zoomFactor + scrollDelta * 0.05f)`
with `scrollDelta` an `int`; `0.1 = 1/10` and `0.05 = 1/20`. -/
def Camera.updateZoom (c : Camera) (scrollDelta : ℤ) : Camera :=
  { c with zoomFactor := max (1 / 10) (c.zoomFactor + (scrollDelta : ℚ) * (1 / 20)) }

/-- Embedding of `Camera::convertWorldToView`: `(worldPos - position) * zoomFactor`. -/
def Camera.convertWorldToView (c : Camera) (worldPos : Vector2f) : Vector2f :=
  (worldPos - c.position) * c.zoomFactor

/-- Embedding of `Camera::convertViewToWorld`: `viewPos / zoomFactor + position`. -/
def Camera.convertViewToWorld (c : Camera) (viewPos : Vector2f) : Vector2f :=
  viewPos / c.zoomFactor + c.position

/-- Embedding of class `Unit`. -/
structure Unit where
  position : Vector2f
  radius : ℚ
  isSelected : Bool
deriving DecidableEq, Repr

/-- Embedding of the `Unit` constructor: `isSelected` starts `false`. -/
def Unit.init (initialPosition : Vector2f) (radius : ℚ) : Unit :=
  { position := initialPosition, radius := radius, isSelected := false }

/-- Embedding of `Unit::moveTo`: unconditional position overwrite. -/
def Unit.moveTo (u : Unit) (destination : Vector2f) : Unit :=
  { u with position := destination }

/-- Embedding of `Unit::contains`: squared distance from the offset centre
`position + (radius, radius)` compared (inclusively) with `radius²`. -/
def Unit.contains (u : Unit) (point : Vector2f) : Bool :=
  let dx := point.x - (u.position.x + u.radius)
  let dy := point.y - (u.position.y + u.radius)
  decide (dx * dx + dy * dy ≤ u.radius * u.radius)

/-- The two mouse buttons handled by the event dispatch in `main`. -/
inductive MouseButton where
  | left
  | right
deriving DecidableEq, Repr

/-- Embedding of the `sf::Event::MouseButtonPressed` dispatch in `main`:
left button toggles selection inside the unit and clears it outside;
right button moves the unit only while it is selected. -/
def dispatchMousePress (myUnit : Unit) (button : MouseButton) (mousePos : Vector2f) : Unit :=
  match button with
  | .left =>
    if myUnit.contains mousePos then
      { myUnit with isSelected := !myUnit.isSelected }
    else
      { myUnit with isSelected := false }
  | .right =>
    if myUnit.isSelected then myUnit.moveTo mousePos else myUnit

lemma subdivide_stop (q : Quadtree) (h : q.children.isEmpty = false ∨ q.depth ≤ 0) :
    q.subdivide = q := by
  rw [Quadtree.subdivide, dif_pos h]

lemma subdivide_go (b : FloatRect) (d : ℤ) (hd : 0 < d) :
    (Quadtree.mk b d []).subdivide =
      Quadtree.mk b d (subdivideIndices.map fun i =>
        Quadtree.subdivide
          (Quadtree.mk ((calculateChildRect b i).getD b) (d - 1) [])) := by
  rw [Quadtree.subdivide, dif_neg]
  · rfl
  · rintro (hc | hdle)
    · simp [Quadtree.children] at hc
    · simp only [Quadtree.depth] at hdle
      omega

lemma subdivide_bounds (q : Quadtree) : q.subdivide.bounds = q.bounds := by
  rw [Quadtree.subdivide]
  split
  · rfl
  · rfl

lemma subdivide_depth (q : Quadtree) : q.subdivide.depth = q.depth := by
  rw [Quadtree.subdivide]
  split
  · rfl
  · rfl

lemma subdivide_children_explicit (b : FloatRect) (d : ℤ) (hd : 0 < d) :
    ((Quadtree.mk b d []).subdivide).children =
      [Quadtree.subdivide (Quadtree.mk ⟨b.left, b.top, b.width / 2, b.height / 2⟩ (d - 1) []),
       Quadtree.subdivide
         (Quadtree.mk ⟨b.left + b.width / 2, b.top, b.width / 2, b.height / 2⟩ (d - 1) []),
       Quadtree.subdivide
         (Quadtree.mk ⟨b.left, b.top + b.height / 2, b.width / 2, b.height / 2⟩ (d - 1) []),
       Quadtree.subdivide
         (Quadtree.mk ⟨b.left + b.width / 2, b.top + b.height / 2, b.width / 2, b.height / 2⟩
           (d - 1) [])] := by
  rw [subdivide_go b d hd]
  simp [subdivideIndices, calculateChildRect, Quadtree.children]

lemma quadrant_cover (x y w h : ℚ) (p : Vector2f) :
    memRect ⟨x, y, w, h⟩ p ↔
      memRect ⟨x, y, w / 2, h / 2⟩ p ∨ memRect ⟨x + w / 2, y, w / 2, h / 2⟩ p ∨
        memRect ⟨x, y + h / 2, w / 2, h / 2⟩ p ∨
          memRect ⟨x + w / 2, y + h / 2, w / 2, h / 2⟩ p := by
  simp only [memRect]
  constructor
  · rintro ⟨h1, h2, h3, h4⟩
    rcases lt_or_le p.x (x + w / 2) with hx | hx <;> rcases lt_or_le p.y (y + h / 2) with hy | hy
    · exact Or.inl ⟨h1, hx, h3, hy⟩
    · exact Or.inr (Or.inr (Or.inl ⟨h1, hx, hy, by linarith⟩))
    · exact Or.inr (Or.inl ⟨hx, by linarith, h3, hy⟩)
    · exact Or.inr (Or.inr (Or.inr ⟨hx, by linarith, hy, by linarith⟩))
  · rintro (⟨h1, h2, h3, h4⟩ | ⟨h1, h2, h3, h4⟩ | ⟨h1, h2, h3, h4⟩ | ⟨h1, h2, h3, h4⟩) <;>
      exact ⟨by linarith, by linarith, by linarith, by linarith⟩

lemma quadrant_disjoint (x y w h : ℚ) :
    ([⟨x, y, w / 2, h / 2⟩, ⟨x + w / 2, y, w / 2, h / 2⟩,
      ⟨x, y + h / 2, w / 2, h / 2⟩, ⟨x + w / 2, y + h / 2, w / 2, h / 2⟩] :
        List FloatRect).Pairwise
      (fun r s => ∀ p : Vector2f, memRect r p → memRect s p → False) := by
  refine List.Pairwise.cons ?_ (List.Pairwise.cons ?_ (List.Pairwise.cons ?_
    (List.pairwise_singleton _ _)))
  all_goals intro s hs p hp hq
  all_goals fin_cases hs
  all_goals simp only [memRect] at hp hq
  all_goals obtain ⟨a1, a2, a3, a4⟩ := hp
  all_goals obtain ⟨b1, b2, b3, b4⟩ := hq
  all_goals linarith

lemma countNodes_mk (b : FloatRect) (d : ℤ) (cs : List Quadtree) :
    (Quadtree.mk b d cs).countNodes = 1 + countNodesList cs := by
  rw [Quadtree.countNodes]

lemma countNodesList_nil : countNodesList [] = 0 := by
  rw [countNodesList]

lemma countNodesList_cons (q : Quadtree) (qs : List Quadtree) :
    countNodesList (q :: qs) = q.countNodes + countNodesList qs := by
  rw [countNodesList]

lemma three_dvd_four_pow_sub_one (m : ℕ) : 3 ∣ 4 ^ m - 1 := by
  induction m with
  | zero => simp
  | succ n ih =>
    have h1 : 1 ≤ 4 ^ n := Nat.one_le_pow _ _ (by norm_num)
    rw [pow_succ]
    omega

lemma subdivide_countNodes (n : ℕ) :
    ∀ b : FloatRect,
      ((Quadtree.mk b (n : ℤ) []).subdivide).countNodes = (4 ^ (n + 1) - 1) / 3 := by
  induction n with
  | zero =>
    intro b
    rw [subdivide_stop _ (Or.inr (by simp [Quadtree.depth]))]
    rw [countNodes_mk, countNodesList_nil]
    norm_num
  | succ n ih =>
    intro b
    have hd : 0 < ((n + 1 : ℕ) : ℤ) := by positivity
    have hcast : ((n + 1 : ℕ) : ℤ) - 1 = (n : ℤ) := by push_cast; ring
    rw [subdivide_go _ _ hd, countNodes_mk]
    simp only [subdivideIndices, List.map_cons, List.map_nil]
    rw [countNodesList_cons, countNodesList_cons, countNodesList_cons, countNodesList_cons,
      countNodesList_nil, hcast, ih, ih, ih, ih]
    have hdvd := three_dvd_four_pow_sub_one (n + 1)
    have h1 : 1 ≤ 4 ^ (n + 1) := Nat.one_le_pow _ _ (by norm_num)
    have hk : 4 ^ (n + 1 + 1) = 4 * 4 ^ (n + 1) := by ring
    rw [hk]
    omega

lemma leavesAtDepthZero_mk_nil (b : FloatRect) (d : ℤ) :
    (Quadtree.mk b d []).leavesAtDepthZero = decide (d = 0) := by
  rw [Quadtree.leavesAtDepthZero]

lemma leavesAtDepthZero_mk_cons (b : FloatRect) (d : ℤ) (q : Quadtree) (qs : List Quadtree) :
    (Quadtree.mk b d (q :: qs)).leavesAtDepthZero = leavesListAtDepthZero (q :: qs) := by
  rw [Quadtree.leavesAtDepthZero]

lemma leavesListAtDepthZero_cons (q : Quadtree) (qs : List Quadtree) :
    leavesListAtDepthZero (q :: qs) = (q.leavesAtDepthZero && leavesListAtDepthZero qs) := by
  rw [leavesListAtDepthZero]

lemma leavesListAtDepthZero_nil : leavesListAtDepthZero [] = true := by
  rw [leavesListAtDepthZero]

lemma subdivide_leavesAtDepthZero (n : ℕ) :
    ∀ b : FloatRect, ((Quadtree.mk b (n : ℤ) []).subdivide).leavesAtDepthZero = true := by
  induction n with
  | zero =>
    intro b
    rw [subdivide_stop _ (Or.inr (by simp [Quadtree.depth]))]
    rw [leavesAtDepthZero_mk_nil]
    simp
  | succ n ih =>
    intro b
    have hd : 0 < ((n + 1 : ℕ) : ℤ) := by positivity
    have hcast : ((n + 1 : ℕ) : ℤ) - 1 = (n : ℤ) := by push_cast; ring
    rw [subdivide_go _ _ hd]
    simp only [subdivideIndices, List.map_cons, List.map_nil]
    rw [leavesAtDepthZero_mk_cons, leavesListAtDepthZero_cons, leavesListAtDepthZero_cons,
      leavesListAtDepthZero_cons, leavesListAtDepthZero_cons, leavesListAtDepthZero_nil,
      hcast, ih, ih, ih, ih]
    rfl

attribute [ext] Vector2f

@[simp] lemma Vector2f.add_x (a b : Vector2f) : (a + b).x = a.x + b.x := rfl

@[simp] lemma Vector2f.add_y (a b : Vector2f) : (a + b).y = a.y + b.y := rfl

@[simp] lemma Vector2f.sub_x (a b : Vector2f) : (a - b).x = a.x - b.x := rfl

@[simp] lemma Vector2f.sub_y (a b : Vector2f) : (a - b).y = a.y - b.y := rfl

@[simp] lemma Vector2f.smul_x (a : Vector2f) (s : ℚ) : (a * s).x = a.x * s := rfl

@[simp] lemma Vector2f.smul_y (a : Vector2f) (s : ℚ) : (a * s).y = a.y * s := rfl

@[simp] lemma Vector2f.sdiv_x (a : Vector2f) (s : ℚ) : (a / s).x = a.x / s := rfl

@[simp] lemma Vector2f.sdiv_y (a : Vector2f) (s : ℚ) : (a / s).y = a.y / s := rfl

/-- C4: `updateZoom` sets the zoom factor to
`max(0.1, zoomFactor + delta * 0.05)`; the result never goes below `0.1`
(in particular `zoom(-1000)` from `zoomFactor = 1` yields exactly `0.1`),
and there is no upper ceiling: every bound `M` is exceeded by some delta. -/
theorem updateZoom_floor_no_ceiling (c : Camera) (delta : ℤ) :
    (c.updateZoom delta).zoomFactor =
        max (1 / 10) (c.zoomFactor + (delta : ℚ) * (1 / 20)) ∧
      1 / 10 ≤ (c.updateZoom delta).zoomFactor ∧
      ((Camera.mk ⟨0, 0⟩ 1 5).updateZoom (-1000)).zoomFactor = 1 / 10 ∧
      ∀ M : ℚ, ∃ e : ℤ, M < (c.updateZoom e).zoomFactor := by
  refine ⟨rfl, le_max_left _ _, by norm_num [Camera.updateZoom], ?_⟩
  intro M
  refine ⟨⌈(M - c.zoomFactor) * 20⌉ + 1, ?_⟩
  have key : M < c.zoomFactor + ((⌈(M - c.zoomFactor) * 20⌉ + 1 : ℤ) : ℚ) * (1 / 20) := by
    have h1 := Int.le_ceil ((M - c.zoomFactor) * 20)
    push_cast
    linarith
  exact lt_of_lt_of_le key (le_max_right _ _)

/-- C5: `Unit::contains` tests against a circle centred at
`position + (radius, radius)`, not at `position`: the offset centre is
inside, and `position` itself is outside whenever `radius > 0`. -/
theorem contains_uses_offset_center (pos : Vector2f) (r : ℚ) (sel : Bool) :
    (Unit.mk pos r sel).contains (pos + ⟨r, r⟩) = true ∧
      (0 < r → (Unit.mk pos r sel).contains pos = false) := by
  constructor
  · simp only [Unit.contains, Vector2f.add_x, Vector2f.add_y, decide_eq_true_eq]
    ring_nf
    positivity
  · intro hr
    simp only [Unit.contains, decide_eq_false_iff_not, not_le]
    nlinarith [mul_pos hr hr]

/-- Witness for C5 at `position = (0,0)`, `radius = 1`: the stored position
itself is not contained. -/
theorem contains_uses_offset_center_witness :
    (0 : ℚ) < 1 ∧ (Unit.mk ⟨0, 0⟩ 1 false).contains ⟨0, 0⟩ = false :=
  ⟨by norm_num, (contains_uses_offset_center ⟨0, 0⟩ 1 false).2 (by norm_num)⟩

/-- C6: from `Unit(position=(100,100), radius=30)`, a left click at
`(130,130)` toggles `selected` to true; a further left click at `(0,0)`
clears it; a right click at `(500,500)` while selected moves the unit
to `(500,500)`. -/
theorem click_scenario :
    (dispatchMousePress (Unit.init ⟨100, 100⟩ 30) .left ⟨130, 130⟩).isSelected = true ∧
      (dispatchMousePress (dispatchMousePress (Unit.init ⟨100, 100⟩ 30) .left ⟨130, 130⟩)
          .left ⟨0, 0⟩).isSelected = false ∧
      (dispatchMousePress (dispatchMousePress (Unit.init ⟨100, 100⟩ 30) .left ⟨130, 130⟩)
          .right ⟨500, 500⟩).position = ⟨500, 500⟩ := by
  norm_num [dispatchMousePress, Unit.init, Unit.contains, Unit.moveTo]

/-- C7: `calculateChildRect` yields a rectangle exactly for indices 0..3 and
signals the invalid-argument condition (`none`) outside; `subdivide` only
supplies the indices of `subdivideIndices`, on which it never fails. -/
theorem calculateChildRect_error_condition (b : FloatRect) (i : ℤ) :
    ((calculateChildRect b i).isSome = true ↔ 0 ≤ i ∧ i ≤ 3) ∧
      (subdivideIndices.all fun j => (calculateChildRect b j).isSome) = true := by
  constructor
  · unfold calculateChildRect
    split_ifs with h0 h1 h2 h3 <;> simp <;> omega
  · simp [subdivideIndices, calculateChildRect]

/-- C8: `convertWorldToView` is `(p - position) * zoomFactor`,
`convertViewToWorld` is `p / zoomFactor + position`, and for a positive
zoom factor the two are mutually inverse. -/
theorem camera_transforms_inverse (c : Camera) (p : Vector2f) :
    c.convertWorldToView p = (p - c.position) * c.zoomFactor ∧
      c.convertViewToWorld p = p / c.zoomFactor + c.position ∧
      (0 < c.zoomFactor → c.convertViewToWorld (c.convertWorldToView p) = p) := by
  refine ⟨rfl, rfl, fun hz => ?_⟩
  have hz0 : c.zoomFactor ≠ 0 := ne_of_gt hz
  simp only [Camera.convertWorldToView, Camera.convertViewToWorld]
  ext
  · simp only [Vector2f.add_x, Vector2f.sdiv_x, Vector2f.smul_x, Vector2f.sub_x]
    field_simp
  · simp only [Vector2f.add_y, Vector2f.sdiv_y, Vector2f.smul_y, Vector2f.sub_y]
    field_simp

/-- Witness for C8: the round trip at `position = (2,3)`, `zoomFactor = 2`,
point `(7,9)`. -/
theorem camera_transforms_inverse_witness :
    0 < (Camera.mk ⟨2, 3⟩ 2 5).zoomFactor ∧
      (Camera.mk ⟨2, 3⟩ 2 5).convertViewToWorld
          ((Camera.mk ⟨2, 3⟩ 2 5).convertWorldToView ⟨7, 9⟩) = ⟨7, 9⟩ :=
  ⟨by decide, (camera_transforms_inverse (Camera.mk ⟨2, 3⟩ 2 5) ⟨7, 9⟩).2.2 (by decide)⟩

/-- C9: the boundary test of `Unit::contains` is inclusive: a point whose
squared distance from the offset centre equals the squared radius is
contained. -/
theorem contains_boundary_inclusive (u : Unit) (p : Vector2f)
    (hb : (p.x - (u.position.x + u.radius)) * (p.x - (u.position.x + u.radius)) +
        (p.y - (u.position.y + u.radius)) * (p.y - (u.position.y + u.radius)) =
          u.radius * u.radius) :
    u.contains p = true := by
  simp only [Unit.contains, decide_eq_true_eq]
  rw [hb]

/-- Witness for C9: the unit at `(0,0)` with radius 1 contains the boundary
point `(2,1)` of its offset-centre circle. -/
theorem contains_boundary_inclusive_witness :
    ((Vector2f.mk 2 1).x - ((Vector2f.mk 0 0).x + (1 : ℚ))) *
          ((Vector2f.mk 2 1).x - ((Vector2f.mk 0 0).x + (1 : ℚ))) +
        ((Vector2f.mk 2 1).y - ((Vector2f.mk 0 0).y + (1 : ℚ))) *
          ((Vector2f.mk 2 1).y - ((Vector2f.mk 0 0).y + (1 : ℚ))) = (1 : ℚ) * 1 ∧
      (Unit.mk ⟨0, 0⟩ 1 false).contains ⟨2, 1⟩ = true :=
  ⟨by norm_num, contains_boundary_inclusive (Unit.mk ⟨0, 0⟩ 1 false) ⟨2, 1⟩ (by norm_num)⟩

/-- C1: after `subdivide` on a region `(x,y,w,h)` of depth `d > 0` there are
exactly four children, in order top-left, top-right, bottom-left,
bottom-right; each child rectangle has dimensions `(w/2, h/2)`; the four
child rectangles tile the parent with no gap and no overlap; and each
child's depth is `d - 1`. -/
theorem subdivide_four_children_tile (x y w h : ℚ) (d : ℤ) (hd : 0 < d) :
    ((Quadtree.mk ⟨x, y, w, h⟩ d []).subdivide).children.map Quadtree.bounds =
        [⟨x, y, w / 2, h / 2⟩, ⟨x + w / 2, y, w / 2, h / 2⟩,
         ⟨x, y + h / 2, w / 2, h / 2⟩, ⟨x + w / 2, y + h / 2, w / 2, h / 2⟩] ∧
      (∀ r ∈ ((Quadtree.mk ⟨x, y, w, h⟩ d []).subdivide).children.map Quadtree.bounds,
          r.width = w / 2 ∧ r.height = h / 2) ∧
      (∀ p : Vector2f, memRect ⟨x, y, w, h⟩ p ↔
          ∃ r ∈ ((Quadtree.mk ⟨x, y, w, h⟩ d []).subdivide).children.map Quadtree.bounds,
            memRect r p) ∧
      (((Quadtree.mk ⟨x, y, w, h⟩ d []).subdivide).children.map Quadtree.bounds).Pairwise
          (fun r s => ∀ p : Vector2f, memRect r p → memRect s p → False) ∧
      ((Quadtree.mk ⟨x, y, w, h⟩ d []).subdivide).children.map Quadtree.depth =
        [d - 1, d - 1, d - 1, d - 1] := by
  have hmap : ((Quadtree.mk ⟨x, y, w, h⟩ d []).subdivide).children.map Quadtree.bounds =
      [⟨x, y, w / 2, h / 2⟩, ⟨x + w / 2, y, w / 2, h / 2⟩,
       ⟨x, y + h / 2, w / 2, h / 2⟩, ⟨x + w / 2, y + h / 2, w / 2, h / 2⟩] := by
    rw [subdivide_children_explicit _ _ hd]
    simp only [List.map_cons, List.map_nil, subdivide_bounds]
    simp only [Quadtree.bounds]
  have hdep : ((Quadtree.mk ⟨x, y, w, h⟩ d []).subdivide).children.map Quadtree.depth =
      [d - 1, d - 1, d - 1, d - 1] := by
    rw [subdivide_children_explicit _ _ hd]
    simp only [List.map_cons, List.map_nil, subdivide_depth]
    simp only [Quadtree.depth]
  refine ⟨hmap, ?_, ?_, ?_, hdep⟩
  · rw [hmap]
    intro r hr
    fin_cases hr <;> exact ⟨rfl, rfl⟩
  · intro p
    rw [hmap]
    simp only [List.mem_cons, List.not_mem_nil, or_false, exists_eq_or_imp, exists_eq_left]
    exact quadrant_cover x y w h p
  · rw [hmap]
    exact quadrant_disjoint x y w h

/-- Witness for C1: the region `(0,0,2,2)` at depth 1. -/
theorem subdivide_four_children_tile_witness :
    (0 : ℤ) < 1 ∧
      ((Quadtree.mk ⟨0, 0, 2, 2⟩ 1 []).subdivide).children.map Quadtree.bounds =
        [⟨0, 0, 1, 1⟩, ⟨1, 0, 1, 1⟩, ⟨0, 1, 1, 1⟩, ⟨1, 1, 1, 1⟩] := by
  refine ⟨by norm_num, ?_⟩
  have h := (subdivide_four_children_tile 0 0 2 2 1 (by norm_num)).1
  rw [h]
  norm_num

/-- C2: `subdivide` is idempotent: a second call is a no-op producing no
additional children, and `subdivide` is a no-op whenever the region already
has children or its depth is at most 0. -/
theorem subdivide_idempotent (q : Quadtree) :
    q.subdivide.subdivide = q.subdivide ∧
      ((q.children ≠ [] ∨ q.depth ≤ 0) → q.subdivide = q) := by
  have hstop : (q.children ≠ [] ∨ q.depth ≤ 0) → q.subdivide = q := by
    intro h
    apply subdivide_stop
    rcases h with h | h
    · left
      cases hq : q.children with
      | nil => exact absurd hq h
      | cons a l => rfl
    · exact Or.inr h
  refine ⟨?_, hstop⟩
  by_cases h : q.children.isEmpty = false ∨ q.depth ≤ 0
  · rw [subdivide_stop q h, subdivide_stop q h]
  · push_neg at h
    obtain ⟨h1, h2⟩ := h
    have hnil : q.children = [] := by
      cases hq : q.children with
      | nil => rfl
      | cons a l => exact absurd (by rw [hq]; rfl) h1
    cases q with
    | mk b d cs =>
      simp only [Quadtree.children] at hnil
      simp only [Quadtree.depth] at h2
      subst hnil
      rw [subdivide_go b d (by omega)]
      apply subdivide_stop
      left
      simp [subdivideIndices, Quadtree.children]

/-- Witness for C2: the depth-0 region, for which `subdivide` is a no-op
and hence trivially idempotent. -/
theorem subdivide_idempotent_witness :
    ((Quadtree.mk ⟨0, 0, 1, 1⟩ 0 []).children ≠ [] ∨
        (Quadtree.mk ⟨0, 0, 1, 1⟩ 0 []).depth ≤ 0) ∧
      (Quadtree.mk ⟨0, 0, 1, 1⟩ 0 []).subdivide = Quadtree.mk ⟨0, 0, 1, 1⟩ 0 [] :=
  ⟨Or.inr (by decide), (subdivide_idempotent (Quadtree.mk ⟨0, 0, 1, 1⟩ 0 [])).2
    (Or.inr (by decide))⟩

/-- C3: one call to `subdivide` on a region of initial depth `d ≥ 0`
materialises the whole tree: it has exactly `(4^(d+1) - 1)/3` nodes
(itself included) and every leaf has depth 0. -/
theorem subdivide_total_node_count (b : FloatRect) (d : ℤ) (hd : 0 ≤ d) :
    ((Quadtree.mk b d []).subdivide).countNodes = (4 ^ (d.toNat + 1) - 1) / 3 ∧
      ((Quadtree.mk b d []).subdivide).leavesAtDepthZero = true := by
  obtain ⟨n, rfl⟩ : ∃ n : ℕ, d = (n : ℤ) := ⟨d.toNat, (Int.toNat_of_nonneg hd).symm⟩
  rw [Int.toNat_natCast]
  exact ⟨subdivide_countNodes n b, subdivide_leavesAtDepthZero n b⟩

/-- Witness for C3: depth 3 gives 85 nodes. -/
theorem subdivide_total_node_count_witness :
    (0 : ℤ) ≤ 3 ∧ ((Quadtree.mk ⟨0, 0, 8, 8⟩ 3 []).subdivide).countNodes = 85 := by
  refine ⟨by norm_num, ?_⟩
  have h := (subdivide_total_node_count ⟨0, 0, 8, 8⟩ 3 (by norm_num)).1
  rw [h]
  decide

/-- C10: `subdivide` never changes the region's own rectangle or depth, and
on a region that already has children it is the identity (so every node
already in the tree is left untouched). -/
theorem subdivide_frame (q : Quadtree) :
    q.subdivide.bounds = q.bounds ∧ q.subdivide.depth = q.depth ∧
      (q.children ≠ [] → q.subdivide = q) := by
  refine ⟨subdivide_bounds q, subdivide_depth q, fun h => subdivide_stop q (Or.inl ?_)⟩
  cases hq : q.children with
  | nil => exact absurd hq h
  | cons a l => rfl

/-- Witness for C10: a region that already has a child is left untouched. -/
theorem subdivide_frame_witness :
    (Quadtree.mk ⟨0, 0, 2, 2⟩ 2 [Quadtree.mk ⟨0, 0, 1, 1⟩ 0 []]).children ≠ [] ∧
      (Quadtree.mk ⟨0, 0, 2, 2⟩ 2 [Quadtree.mk ⟨0, 0, 1, 1⟩ 0 []]).subdivide =
        Quadtree.mk ⟨0, 0, 2, 2⟩ 2 [Quadtree.mk ⟨0, 0, 1, 1⟩ 0 []] :=
  ⟨by simp [Quadtree.children],
    (subdivide_frame (Quadtree.mk ⟨0, 0, 2, 2⟩ 2 [Quadtree.mk ⟨0, 0, 1, 1⟩ 0 []])).2.2
      (by simp [Quadtree.children])⟩

end TheGreatWar
